import Mathlib

/-!
# Verification of the aergia-js lazy-iterator library

Shallow embedding of `src/lib/index.ts`: a small library of pull-based lazy
iterators.  A TS `Iterator<T>` is modelled as a machine with an explicit
cursor-state type `σ` and a pure `next : σ → Step α × σ`; the hidden mutable
cursor of the TS objects becomes explicit state passing.  JS numbers used as
lengths/bounds are modelled as `JsNum` (finite rational, ±Infinity, or NaN),
and the caps `n` of the aggregation functions as integers (`Infinity` caps are
out of scope of the bounded claims below).  The `TypeError('Empty iterator')`
thrown by `min` is modelled with `Except`.
-/

namespace Aergia

/-- The result of one pull: the TS `IteratorResult<T>`, either
`{ done: true }` or `{ done: false, value }`. -/
inductive Step (α : Type) where
  | done : Step α
  | value : α → Step α
deriving DecidableEq

/-- A pull-based iterator with explicit cursor state `σ`: the embedding of the
TS `Iterator<T>` protocol.  `next` maps a cursor state to the produced step
result together with the advanced cursor state. -/
structure Iter (σ α : Type) where
  next : σ → Step α × σ

/-- A JS number in the positions where the library relies on non-finite
values: lengths and bounds. -/
inductive JsNum where
  | nan : JsNum
  | negInf : JsNum
  | posInf : JsNum
  | fin : ℚ → JsNum
deriving DecidableEq

/-- The JS comparison `i < length` of a natural cursor against a `JsNum`
bound: every comparison with `NaN` is false, `i < Infinity` is true,
`i < -Infinity` is false. -/
def JsNum.natLt (i : ℕ) : JsNum → Bool
  | JsNum.nan => false
  | JsNum.negInf => false
  | JsNum.posInf => true
  | JsNum.fin q => decide ((i : ℚ) < q)

/-- IEEE division as used by `arrange` for `(stop - start) / step` with finite
operands: division by zero gives `±Infinity`, or `NaN` when the numerator is
zero as well. -/
def jsDiv (a b : ℚ) : JsNum :=
  if b = 0 then
    if 0 < a then JsNum.posInf
    else if a < 0 then JsNum.negInf
    else JsNum.nan
  else JsNum.fin (a / b)

/-- The recursion of `shift(iterator, n)` (src/lib/index.ts:7), with the
number of remaining pulls `n.toNat` made explicit so that the definition is
structurally recursive (the source recurses on the JS number `n` and stops
when `n < 1`, i.e. when `n.toNat = 0`): pull once, return that result if no
pulls remain, otherwise keep going.  Note the source never inspects `done`:
the pulls happen unconditionally. -/
def shiftAux (it : Iter σ α) : ℕ → σ → Step α × σ
  | 0, s => it.next s
  | k + 1, s => shiftAux it k (it.next s).2

/-- `shift(iterator, n)` (src/lib/index.ts:7).  The theorems
`shift_of_lt_one` and `shift_of_ge_one` below restate the source's exact
recursion: return the first pull when `n < 1`, else recurse with `n - 1`. -/
def shift (it : Iter σ α) (s : σ) (n : ℤ) : Step α × σ :=
  shiftAux it n.toNat s

/-- The recursion of `reduce` (src/lib/index.ts:23) with the remaining cap
`n.toNat` made explicit (the source recurses with `n - 1` and returns the
accumulator once `n < 1`, i.e. once `n.toNat = 0`). -/
def reduceAux (it : Iter σ α) (reducer : α → β → β) (stop : Option (α → Bool)) :
    ℕ → β → σ → β × σ
  | 0, acc, s => (acc, s)
  | k + 1, acc, s =>
    match shift it s 0 with
    | (Step.done, s') => (acc, s')
    | (Step.value v, s') =>
      if (stop.map fun f => f v).getD false then
        (reducer v acc, s')
      else
        reduceAux it reducer stop k (reducer v acc) s'

/-- `reduce(iterator, reducer, initialValue, n, stop)` (src/lib/index.ts:23):
returns `initialValue` when `n < 1` without pulling; otherwise pulls one item
via `shift`, returns `initialValue` on done, folds the item and either stops
early (when `stop` holds on the item) or recurses with cap `n - 1`.  The
theorems `reduce_of_lt_one`, `reduce_of_done`, `reduce_of_value_stop` and
`reduce_of_value_go` below restate the source's exact case split. -/
def reduce (it : Iter σ α) (reducer : α → β → β) (initialValue : β) (n : ℤ)
    (stop : Option (α → Bool)) (s : σ) : β × σ :=
  reduceAux it reducer stop n.toNat initialValue s

/-- `every(iterator, test, n)` (src/lib/index.ts:44): a reduce with a
conjunction reducer and the early stop `value => !test(value)`. -/
def every (it : Iter σ α) (test : α → Bool) (n : ℤ) (s : σ) : Bool × σ :=
  reduce it (fun v r => test v && r) true n (Option.some fun v => !(test v)) s

/-- `take(iterator, n)` (src/lib/index.ts:65): a reduce pushing every item
onto an array. -/
def take (it : Iter σ α) (n : ℤ) (s : σ) : List α × σ :=
  reduce it (fun v r => r ++ [v]) [] n Option.none s

/-- The two error kinds named by the specification.  The source's `min`
throws `TypeError('Empty iterator')`, modelled as `emptySequence`;
`invalidStep` is the spec's error for `arange(step = 0)`. -/
inductive AergiaError where
  | emptySequence : AergiaError
  | invalidStep : AergiaError
deriving DecidableEq

/-- `min(iterator, lessThan, n)` (src/lib/index.ts:87): pulls a first item
(throwing on an empty source, modelled with `Except.error`), then reduces the
remaining items with cap `n`, replacing the candidate exactly when
`lessThan value candidate`. -/
def min (it : Iter σ α) (lessThan : α → α → Bool) (n : ℤ) (s : σ) :
    Except AergiaError (α × σ) :=
  match shift it s 0 with
  | (Step.done, _) => Except.error AergiaError.emptySequence
  | (Step.value first, s') =>
    Except.ok
      (reduce it (fun v otherValue => if lessThan v otherValue then v else otherValue)
        first n Option.none s')

/-- `max(iterator, lessThan, n)` (src/lib/index.ts:102): `min` with the two
comparator arguments swapped. -/
def max (it : Iter σ α) (lessThan : α → α → Bool) (n : ℤ) (s : σ) :
    Except AergiaError (α × σ) :=
  min it (fun v otherValue => lessThan otherValue v) n s

/-- `map(iterator, mapper)` (src/lib/index.ts:125): one pull from the result
performs one pull on the source; done passes through untouched, otherwise the
mapper is applied. -/
def map (it : Iter σ α) (mapper : α → β) : Iter σ β where
  next s :=
    match shift it s 0 with
    | (Step.done, s') => (Step.done, s')
    | (Step.value v, s') => (Step.value (mapper v), s')

/-- One pull from `filter(iterator, test)` (src/lib/index.ts:145): the
source's recursive `this.next()` skip-loop, with explicit fuel bounding the
number of source pulls; `Option.none` means the fuel ran out (the source code
keeps pulling in that situation). -/
def filterNext (it : Iter σ α) (test : α → Bool) : ℕ → σ → Option (Step α × σ)
  | 0, _ => Option.none
  | fuel + 1, s =>
    match shift it s 0 with
    | (Step.done, s') => Option.some (Step.done, s')
    | (Step.value v, s') =>
      if test v then Option.some (Step.value v, s') else filterNext it test fuel s'

/-- `sequence(nth, length)` (src/lib/index.ts:163): cursor is the next index
`i`; when `!(i < length)` it reports done without advancing `i`, otherwise it
emits `nth i` and increments the cursor. -/
def sequence (nth : ℕ → α) (length : JsNum) : Iter ℕ α where
  next i :=
    if JsNum.natLt i length then
      (Step.value (nth i), i + 1)
    else
      (Step.done, i)

/-- `arrange(start, stop, step)` (src/lib/index.ts:200, the spec's `arange`,
all arguments supplied): no validation of `step`; delegates to `sequence`
with the generator `n => start + n * step` and length `(stop - start) / step`
computed with JS division. -/
def arrange (start stop step : ℚ) : Iter ℕ ℚ :=
  sequence (fun n => start + (n : ℚ) * step) (jsDiv (stop - start) step)

/-- `recursive(nth, length, ...initial)` (src/lib/index.ts:214): delegates to
`sequence` with a stateful generator closing over the window array; here the
window is part of the cursor state.  Each step appends `nth window` to the
window and emits the removed head. -/
def recursive (nth : List α → α) (length : JsNum) : Iter (ℕ × List α) α where
  next s :=
    if JsNum.natLt s.1 length then
      match s.2 with
      | [] => (Step.value (nth []), (s.1 + 1, []))
      | w :: rest => (Step.value w, (s.1 + 1, rest ++ [nth (w :: rest)]))
    else
      (Step.done, s)

/-- `empty()` (src/lib/index.ts:228): done on every call. -/
def empty : Iter Unit α where
  next s := (Step.done, s)

/-- `iterator(array)` (src/lib/index.ts:291, the `Symbol.iterator` branch for
an array): the array's own iterator, whose cursor is the remaining list. -/
def iterator : Iter (List α) α where
  next s :=
    match s with
    | [] => (Step.done, [])
    | v :: rest => (Step.value v, rest)

/-- The skip-to-next-sub-iterator recursion of `concatenate`
(src/lib/index.ts:241), structurally recursive on the list of remaining
sub-iterators: pull from the current one; on a value surface it, on done
advance to the next sub-iterator and retry (`return this.next()` in the
source), reporting done once no sub-iterator remains. -/
def concatAux (it : Iter σ α) : σ → List σ → Step α × Option (σ × List σ)
  | s, [] =>
    match it.next s with
    | (Step.value v, s') => (Step.value v, Option.some (s', []))
    | (Step.done, _) => (Step.done, Option.none)
  | s, s2 :: rest' =>
    match it.next s with
    | (Step.value v, s') => (Step.value v, Option.some (s', s2 :: rest'))
    | (Step.done, _) => concatAux it s2 rest'

/-- One pull from `concatenate(...iterators)` (src/lib/index.ts:241).  The
state `Option.none` models `iteratorsDone = true`; otherwise the state holds
the current sub-iterator's cursor and the cursors of the remaining
sub-iterators.  All sub-iterators run on one machine `it` (a heterogeneous
family embeds via a sum state type, see `sumIter`). -/
def concatNext (it : Iter σ α) :
    Option (σ × List σ) → Step α × Option (σ × List σ)
  | Option.none => (Step.done, Option.none)
  | Option.some (s, rest) => concatAux it s rest

/-- The `concatenate` machine over sub-iterators of the machine `it`. -/
def concatenate (it : Iter σ α) : Iter (Option (σ × List σ)) α where
  next := concatNext it

/-- `concatenate`'s initial state: the source's initial
`shift(iteratorsIterator)` splitting the iterator list into a current one and
the rest, with `iteratorsDone = true` (`Option.none`) for an empty list. -/
def concatInit : List σ → Option (σ × List σ)
  | [] => Option.none
  | s :: rest => Option.some (s, rest)

/-- Disjoint union of two machines, for running heterogeneous sub-iterators
under one `concatenate` machine. -/
def sumIter (it1 : Iter σ₁ α) (it2 : Iter σ₂ α) : Iter (σ₁ ⊕ σ₂) α where
  next s :=
    match s with
    | Sum.inl s1 =>
      let r := it1.next s1
      (r.1, Sum.inl r.2)
    | Sum.inr s2 =>
      let r := it2.next s2
      (r.1, Sum.inr r.2)

/-- `unshift(iterator, ...values)` (src/lib/index.ts:266):
`concatenate(values[Symbol.iterator](), iterator)`.  The machine: a
concatenation over the sum of the list iterator and the wrapped machine. -/
def unshift (it : Iter σ α) : Iter (Option ((List α ⊕ σ) × List (List α ⊕ σ))) α :=
  concatenate (sumIter iterator it)

/-- `unshift`'s initial state: the values list first, then the wrapped
iterator's cursor. -/
def unshiftInit (values : List α) (s : σ) : Option ((List α ⊕ σ) × List (List α ⊕ σ)) :=
  concatInit [Sum.inl values, Sum.inr s]

/-! ## Specification-side helpers -/

/-- Materializes at most `fuel` items pulled from `it` starting at cursor
`s`, stopping early at a done signal (specification-side observation
function). -/
def collect (it : Iter σ α) : ℕ → σ → List α
  | 0, _ => []
  | fuel + 1, s =>
    match it.next s with
    | (Step.done, _) => []
    | (Step.value v, s') => v :: collect it fuel s'

/-- The candidate scan the claims describe for `min`: each item replaces the
running candidate exactly when `lessThan item candidate` holds, so the
earliest-encountered item wins ties. -/
def runMin (lessThan : α → α → Bool) (first : α) (rest : List α) : α :=
  rest.foldl (fun otherValue v => if lessThan v otherValue then v else otherValue) first

/-- Modelled from the spec (claim C2's reading of `min`): the candidate scan
over exactly the first `k` items yielded by the iterator, `Option.none` when
it yields none. -/
def minOfFirst (it : Iter σ α) (lessThan : α → α → Bool) (k : ℕ) (s : σ) : Option α :=
  match collect it k s with
  | [] => Option.none
  | first :: rest => Option.some (runMin lessThan first rest)

/-- `it` with a pull counter added to the cursor: every `next` call
increments the count.  Used to reason about how many pulls an operation
performs. -/
def counted (it : Iter σ α) : Iter (σ × ℕ) α where
  next s :=
    let r := it.next s.1
    (r.1, (r.2, s.2 + 1))

/-- The cursor after one pull. -/
def nextState (it : Iter σ α) (s : σ) : σ := (it.next s).2

/-- The iterator reports done when pulled at cursor `s`. -/
def IsDoneAt (it : Iter σ α) (s : σ) : Prop := (it.next s).1 = Step.done

/-- One-step stability of done: a pull made at a done cursor leaves the
iterator done. -/
def DoneStable (it : Iter σ α) : Prop :=
  ∀ s, IsDoneAt it s → IsDoneAt it (nextState it s)

/-- Idempotent termination: once the iterator reports done, every subsequent
pull reports done as well. -/
def DoneSticky (it : Iter σ α) : Prop :=
  ∀ s, IsDoneAt it s → ∀ k, IsDoneAt it ((nextState it)^[k] s)

instance (it : Iter σ α) [DecidableEq α] [DecidableEq σ] (s : σ) :
    Decidable (IsDoneAt it s) := by
  unfold IsDoneAt; infer_instance

/-- `Except` as a sum, to transport decidable equality. -/
def exceptToSum : Except ε α → ε ⊕ α
  | Except.error e => Sum.inl e
  | Except.ok a => Sum.inr a

instance [DecidableEq ε] [DecidableEq α] : DecidableEq (Except ε α) := fun a b =>
  decidable_of_iff (exceptToSum a = exceptToSum b)
    (by cases a <;> cases b <;> simp [exceptToSum])

/-! ## Characteristic equations: the source's recursions, verbatim -/

/-- `shift` for `n < 1` returns the single pull's result (src line 9-11). -/
theorem shift_of_lt_one (it : Iter σ α) (s : σ) (n : ℤ) (h : n < 1) :
    shift it s n = it.next s := by
  unfold shift
  have h0 : n.toNat = 0 := by omega
  rw [h0]
  rfl

/-- `shift` for `n ≥ 1` discards the first pull and recurses with `n - 1`
(src line 12). -/
theorem shift_of_ge_one (it : Iter σ α) (s : σ) (n : ℤ) (h : 1 ≤ n) :
    shift it s n = shift it (it.next s).2 (n - 1) := by
  unfold shift
  have h1 : n.toNat = (n - 1).toNat + 1 := by omega
  rw [h1]
  rfl

/-- The single pull `shift(iterator)` done by `reduce`, `min`, `map` and
`filter` (default `n = 0`). -/
theorem shift_zero (it : Iter σ α) (s : σ) : shift it s 0 = it.next s :=
  shift_of_lt_one it s 0 (by omega)

/-- One step of `reduceAux` on a source yielding an item: either stop with
the item folded, or fold it and keep going. -/
theorem reduceAux_succ_value (it : Iter σ α) (red : α → β → β) (init : β)
    (stop : Option (α → Bool)) (s s' : σ) (v : α) (k : ℕ)
    (hv : it.next s = (Step.value v, s')) :
    reduceAux it red stop (k + 1) init s =
      if (stop.map fun f => f v).getD false then
        (red v init, s')
      else
        reduceAux it red stop k (red v init) s' := by
  conv_lhs => unfold reduceAux
  rw [shift_zero, hv]

/-- `reduce` with `n < 1` returns `initialValue` without pulling
(src line 24-26). -/
theorem reduce_of_lt_one (it : Iter σ α) (red : α → β → β) (init : β) (n : ℤ)
    (stop : Option (α → Bool)) (s : σ) (h : n < 1) :
    reduce it red init n stop s = (init, s) := by
  unfold reduce
  have h0 : n.toNat = 0 := by omega
  rw [h0]
  rfl

/-- `reduce` with `n ≥ 1` on an exhausted source returns `initialValue`; the
probing pull has still advanced the cursor (src line 27-30). -/
theorem reduce_of_done (it : Iter σ α) (red : α → β → β) (init : β) (n : ℤ)
    (stop : Option (α → Bool)) (s s' : σ) (h : 1 ≤ n)
    (hv : it.next s = (Step.done, s')) :
    reduce it red init n stop s = (init, s') := by
  unfold reduce
  have h1 : n.toNat = (n - 1).toNat + 1 := by omega
  rw [h1]
  unfold reduceAux
  rw [shift_zero, hv]

/-- `reduce` with `n ≥ 1` on an item satisfying `stop` folds that item and
returns (src line 31-33). -/
theorem reduce_of_value_stop (it : Iter σ α) (red : α → β → β) (init : β)
    (n : ℤ) (stop : Option (α → Bool)) (s s' : σ) (v : α) (h : 1 ≤ n)
    (hv : it.next s = (Step.value v, s'))
    (hstop : (stop.map fun f => f v).getD false = true) :
    reduce it red init n stop s = (red v init, s') := by
  unfold reduce
  have h1 : n.toNat = (n - 1).toNat + 1 := by omega
  rw [h1, reduceAux_succ_value it red init stop s s' v _ hv, if_pos hstop]

/-- `reduce` with `n ≥ 1` on an item not satisfying `stop` folds the item
and recurses with cap `n - 1` (src line 34). -/
theorem reduce_of_value_go (it : Iter σ α) (red : α → β → β) (init : β)
    (n : ℤ) (stop : Option (α → Bool)) (s s' : σ) (v : α) (h : 1 ≤ n)
    (hv : it.next s = (Step.value v, s'))
    (hstop : (stop.map fun f => f v).getD false = false) :
    reduce it red init n stop s = reduce it red (red v init) (n - 1) stop s' := by
  unfold reduce
  have h1 : n.toNat = (n - 1).toNat + 1 := by omega
  rw [h1, reduceAux_succ_value it red init stop s s' v _ hv, if_neg (by rw [hstop]; exact Bool.false_ne_true)]

/-- `min` on a source whose first pull reports done throws
`TypeError('Empty iterator')` (src line 88-91). -/
theorem min_of_done (it : Iter σ α) (lt : α → α → Bool) (n : ℤ) (s s' : σ)
    (hv : it.next s = (Step.done, s')) :
    min it lt n s = Except.error AergiaError.emptySequence := by
  unfold min
  rw [shift_zero, hv]

/-- `min` on a source yielding a first item reduces the remaining items with
that item as the running candidate (src line 92). -/
theorem min_of_value (it : Iter σ α) (lt : α → α → Bool) (n : ℤ) (s s' : σ)
    (v : α) (hv : it.next s = (Step.value v, s')) :
    min it lt n s =
      Except.ok
        (reduce it (fun a b => if lt a b then a else b) v n Option.none s') := by
  unfold min
  rw [shift_zero, hv]

/-! ## Pull counting -/

/-- On the instrumented machine, `shift` advances the pull counter by exactly
`n.toNat + 1`, whatever the source reports. -/
theorem shift_counted_count (it : Iter σ α) :
    ∀ (k : ℕ) (n : ℤ), n.toNat = k → ∀ (s : σ) (c : ℕ),
      (shift (counted it) (s, c) n).2.2 = c + (n.toNat + 1) := by
  intro k
  induction k with
  | zero =>
    intro n hn s c
    rw [shift_of_lt_one _ _ _ (by omega)]
    simp [counted, hn]
  | succ k ih =>
    intro n hn s c
    rw [shift_of_ge_one _ _ _ (by omega)]
    have h2 : ((counted it).next (s, c)).2 = ((it.next s).2, c + 1) := rfl
    rw [h2, ih (n - 1) (by omega)]
    omega

/-- For a done-stable source that is already done, `shift` returns a done
result however many pulls it makes. -/
theorem shift_done_of_doneStable (it : Iter σ α) (hst : DoneStable it) :
    ∀ (k : ℕ) (n : ℤ), n.toNat = k → ∀ s, IsDoneAt it s →
      (shift it s n).1 = Step.done := by
  intro k
  induction k with
  | zero =>
    intro n hn s hs
    rw [shift_of_lt_one _ _ _ (by omega)]
    exact hs
  | succ k ih =>
    intro n hn s hs
    rw [shift_of_ge_one _ _ _ (by omega)]
    exact ih (n - 1) (by omega) _ (hst s hs)

/-! ## Claim theorems -/

/-- C1 (code defect): `arrange` performs no validation of `step`: with
`step = 0` and `stop > start` the computed JS length is `+Infinity`, the call
returns normally, and the returned iterator yields the constant `start`
forever — no InvalidStepError (nor any error) is raised, contrary to the
specification and to the repository's own test named
`'throws when step is 0'`, which only passes through eventual stack
exhaustion of the unbounded recursion in `take`/`reduce`. -/
theorem c1_arrange_step_zero_returns_iterator :
    jsDiv ((3 : ℚ) - 1) 0 = JsNum.posInf ∧
    (arrange 1 3 0).next 0 = (Step.value 1, 1) ∧
    collect (arrange 1 3 0) 5 0 = [1, 1, 1, 1, 1] := by
  norm_num [collect, arrange, sequence, jsDiv, JsNum.natLt]

/-- C3: `reduce` with cap `n ≤ 0` returns `initialValue` with the cursor
untouched — zero items are consumed, for every source, including infinite
ones — and consequently `take` with cap `0` returns the empty array without
pulling anything. -/
theorem c3_reduce_nonpos_cap_consumes_nothing (it : Iter σ α) (red : α → β → β)
    (init : β) (n : ℤ) (stop : Option (α → Bool)) (s : σ) (h : n ≤ 0) :
    reduce it red init n stop s = (init, s) ∧ take it 0 s = ([], s) := by
  refine ⟨reduce_of_lt_one it red init n stop s (by omega), ?_⟩
  unfold take
  exact reduce_of_lt_one it _ _ 0 _ s (by omega)

/-- C3 witness: the infinite producer `sequence(n => n)` with caps `-1`
and `0`. -/
theorem c3_witness :
    reduce (sequence (fun n => (n : ℤ)) JsNum.posInf) (fun v r => v + r) 7 (-1)
      Option.none 0 = (7, 0) ∧
    take (sequence (fun n => (n : ℤ)) JsNum.posInf) 0 0 = ([], 0) :=
  c3_reduce_nonpos_cap_consumes_nothing (sequence (fun n => (n : ℤ)) JsNum.posInf)
    (fun v r => v + r) 7 (-1) Option.none 0 (by omega)

/-- C6: when `reduce` meets an item on which `stop` holds, that item is still
folded into the accumulator and the fold returns at once — the cursor ends
right after that item, so nothing further is consumed: `stop` means stop
after this one, not reject this one. -/
theorem c6_stop_item_folded (it : Iter σ α) (red : α → β → β) (init : β)
    (n : ℤ) (stop : α → Bool) (s s' : σ) (v : α) (hn : 1 ≤ n)
    (hv : it.next s = (Step.value v, s')) (hstop : stop v = true) :
    reduce it red init n (Option.some stop) s = (red v init, s') := by
  apply reduce_of_value_stop it red init n _ s s' v hn hv
  simp [hstop]

/-- C6 witness: folding `[9, 7]` with stop predicate `3 ≤ v`: `9` satisfies
the predicate, is folded, and `7` is left unconsumed. -/
theorem c6_witness :
    reduce iterator (fun (v : ℤ) (r : List ℤ) => v :: r) [] 5
      (Option.some fun v => decide (3 ≤ v)) [9, 7] = ([9], [7]) :=
  c6_stop_item_folded iterator (fun v r => v :: r) [] 5
    (fun v => decide (3 ≤ v)) [9, 7] [7] 9 (by omega) (by decide) (by decide)

/-- C10: with a cap `n ≤ 0`, `min` on a source yielding at least one item
still pulls exactly one item — the unconditional first pull for the
emptiness check — and returns it; the cursor ends right after that item. -/
theorem c10_min_nonpos_cap_returns_first (it : Iter σ α) (lt : α → α → Bool)
    (n : ℤ) (s s' : σ) (v : α) (hn : n ≤ 0)
    (hv : it.next s = (Step.value v, s')) :
    min it lt n s = Except.ok (v, s') := by
  rw [min_of_value it lt n s s' v hv,
      reduce_of_lt_one it _ v n Option.none s' (by omega)]

/-- C10 witness: `min` with cap `0` on `[5, 3]` returns `5` and consumes
only it. -/
theorem c10_witness :
    min iterator (fun a b : ℤ => decide (a < b)) 0 [5, 3] = Except.ok (5, [3]) :=
  c10_min_nonpos_cap_returns_first iterator (fun a b => decide (a < b)) 0
    [5, 3] [3] 5 (by omega) (by decide)

/-- C4 counterexample: on the already-exhausted `empty` iterator the very
first pull reports done, yet `shift` with `n = 2` still performs three pulls
(the instrumented counter reaches 3, not 1): the source never checks `done`
before pulling again, so pulls do happen after a done signal, contrary to
the claim that the remaining positions are not advanced. -/
theorem c4_counterexample :
    (counted (empty (α := ℕ))).next ((), 0) = (Step.done, ((), 1)) ∧
    shift (counted (empty (α := ℕ))) ((), 0) 2 = (Step.done, ((), 3)) := by
  decide

/-- C4 amended: `shift(sequence, n)` always performs exactly `n.toNat + 1`
pulls — `n + 1` for `n ≥ 0` and exactly one pull for `n < 1` — regardless of
whether the sequence has already terminated; for `n < 1` it returns the
single pull's result, and on a well-behaved (done-stable) sequence that is
already done the returned result is still a done result. -/
theorem c4_shift_always_pulls_succ_n (it : Iter σ α) (n : ℤ) (s : σ) (c : ℕ) :
    (shift (counted it) (s, c) n).2.2 = c + (n.toNat + 1) ∧
    (n < 1 → shift it s n = it.next s) ∧
    (DoneStable it → IsDoneAt it s → (shift it s n).1 = Step.done) :=
  ⟨shift_counted_count it n.toNat n rfl s c,
   fun h => shift_of_lt_one it s n h,
   fun hst hs => shift_done_of_doneStable it hst n.toNat n rfl s hs⟩

/-- C4 witness: the amended statement at `empty`, `n = 0`, counter `5`. -/
theorem c4_witness :
    (shift (counted (empty (α := ℕ))) ((), 5) 0).2.2 = 5 + ((0 : ℤ).toNat + 1) ∧
    shift (empty (α := ℕ)) () 0 = (empty (α := ℕ)).next () ∧
    (shift (empty (α := ℕ)) () 0).1 = Step.done := by
  obtain ⟨h1, h2, h3⟩ := c4_shift_always_pulls_succ_n (empty (α := ℕ)) 0 () 5
  exact ⟨h1, h2 (by omega), h3 (fun s hs => rfl) (by decide)⟩

/-- C8: `min` and `max` fail exactly when the source's very first pull
reports done — for every cap `n`, in particular `n ≤ 0`, since the emptiness
probe precedes any use of the cap — and the only error either can produce is
the empty-sequence error (the source's `TypeError('Empty iterator')`). -/
theorem c8_min_max_error_iff_empty (it : Iter σ α) (lt : α → α → Bool)
    (n : ℤ) (s : σ) :
    ((∃ e, min it lt n s = Except.error e) ↔ IsDoneAt it s) ∧
    ((∃ e, max it lt n s = Except.error e) ↔ IsDoneAt it s) ∧
    (∀ e, min it lt n s = Except.error e → e = AergiaError.emptySequence) ∧
    (∀ e, max it lt n s = Except.error e → e = AergiaError.emptySequence) := by
  have key : ∀ (f : α → α → Bool),
      ((∃ e, min it f n s = Except.error e) ↔ IsDoneAt it s) ∧
      (∀ e, min it f n s = Except.error e → e = AergiaError.emptySequence) := by
    intro f
    rcases hv : it.next s with ⟨r, s'⟩
    cases r with
    | done =>
      rw [min_of_done it f n s s' hv]
      refine ⟨⟨fun _ => ?_, fun _ => ⟨AergiaError.emptySequence, rfl⟩⟩, ?_⟩
      · show (it.next s).1 = Step.done
        rw [hv]
      · intro e he
        injection he with h
        exact h.symm
    | value v =>
      rw [min_of_value it f n s s' v hv]
      refine ⟨⟨fun he => ?_, fun hd => ?_⟩, ?_⟩
      · obtain ⟨e, he⟩ := he
        exact Except.noConfusion he
      · simp [IsDoneAt, hv] at hd
      · intro e he
        exact Except.noConfusion he
  have hmax : max it lt n s = min it (fun a b => lt b a) n s := rfl
  refine ⟨(key lt).1, ?_, (key lt).2, ?_⟩
  · rw [hmax]
    exact (key fun a b => lt b a).1
  · rw [hmax]
    exact (key fun a b => lt b a).2

/-- C8 witness: on the exhausted list iterator and a negative cap, `min`
raises the empty-sequence error. -/
theorem c8_witness :
    ∃ e, min iterator (fun a b : ℤ => decide (a < b)) (-1) ([] : List ℤ) =
      Except.error e :=
  (c8_min_max_error_iff_empty iterator (fun a b => decide (a < b)) (-1) []).1.mpr
    (by decide)

/-- `collect` on a pull yielding an item. -/
theorem collect_succ_value (it : Iter σ α) (fuel : ℕ) (s s' : σ) (v : α)
    (hv : it.next s = (Step.value v, s')) :
    collect it (fuel + 1) s = v :: collect it fuel s' := by
  conv_lhs => unfold collect
  rw [hv]

/-- `collect` on a pull reporting done. -/
theorem collect_succ_done (it : Iter σ α) (fuel : ℕ) (s s' : σ)
    (hv : it.next s = (Step.done, s')) :
    collect it (fuel + 1) s = [] := by
  conv_lhs => unfold collect
  rw [hv]

/-- Without a stop predicate, the result of `reduce` with cap `n` is the left
fold of exactly the items `collect`ed with fuel `n.toNat`. -/
theorem reduce_fst_eq_foldl_collect (it : Iter σ α) (red : α → β → β) :
    ∀ (k : ℕ) (n : ℤ), n.toNat = k → ∀ (init : β) (s : σ),
      (reduce it red init n Option.none s).1 =
        (collect it k s).foldl (fun acc v => red v acc) init := by
  intro k
  induction k with
  | zero =>
    intro n hn init s
    rw [reduce_of_lt_one it red init n _ s (by omega)]
    rfl
  | succ k ih =>
    intro n hn init s
    rcases hv : it.next s with ⟨r, s'⟩
    cases r with
    | done =>
      rw [reduce_of_done it red init n _ s s' (by omega) hv,
          collect_succ_done it k s s' hv]
      rfl
    | value v =>
      rw [reduce_of_value_go it red init n Option.none s s' v (by omega) hv rfl,
          collect_succ_value it k s s' v hv, List.foldl_cons,
          ih (n - 1) (by omega)]

/-- `minOfFirst` once the collected prefix is known. -/
theorem minOfFirst_eq (it : Iter σ α) (lt : α → α → Bool) (k : ℕ) (s : σ)
    (first : α) (rest : List α) (h : collect it k s = first :: rest) :
    minOfFirst it lt k s = Option.some (runMin lt first rest) := by
  unfold minOfFirst
  rw [h]

/-- C2 counterexample: on the source `[5, 3]` with cap `n = 1`, the library
`min` returns `3` — it scanned the first item plus one more — whereas the
minimum over exactly the first `1` item is `5`. -/
theorem c2_counterexample :
    min iterator (fun a b : ℤ => decide (a < b)) 1 [5, 3] = Except.ok (3, []) ∧
    minOfFirst iterator (fun a b : ℤ => decide (a < b)) 1 [5, 3] =
      Option.some 5 ∧
    (3 : ℤ) ≠ 5 := by
  decide

/-- C2 amended: for a source yielding at least one item, `min(S, lt, n)`
returns the earliest-encountered minimum — the candidate scan in which an
item replaces the running candidate exactly when `lt item candidate`, so the
earliest item wins ties — over the first `n.toNat + 1` items (the
unconditionally pulled first item plus up to `n` more), not over the first
`n`; and `max` is `min` with the comparator arguments swapped. -/
theorem c2_min_scans_first_succ_n (it : Iter σ α) (lt : α → α → Bool) (n : ℤ)
    (s s' : σ) (v : α) (hv : it.next s = (Step.value v, s')) :
    (min it lt n s).toOption.map Prod.fst =
      minOfFirst it lt (n.toNat + 1) s ∧
    max it lt n s = min it (fun a b => lt b a) n s := by
  refine ⟨?_, rfl⟩
  rw [min_of_value it lt n s s' v hv,
      minOfFirst_eq it lt (n.toNat + 1) s v (collect it n.toNat s')
        (collect_succ_value it n.toNat s s' v hv)]
  unfold runMin
  have h := reduce_fst_eq_foldl_collect it (fun a b => if lt a b then a else b)
    n.toNat n rfl v s'
  rw [← h]
  rfl

/-! ## Done-stability of the producers and transformers -/

theorem doneSticky_of_doneStable (it : Iter σ α) (h : DoneStable it) :
    DoneSticky it := by
  intro s hs k
  induction k generalizing s with
  | zero => exact hs
  | succ k ih =>
    rw [Function.iterate_succ_apply]
    exact ih (nextState it s) (h s hs)

theorem sequence_doneStable (nth : ℕ → α) (len : JsNum) :
    DoneStable (sequence nth len) := by
  intro s hs
  by_cases h : JsNum.natLt s len
  · exact absurd hs (by simp [IsDoneAt, sequence, h])
  · simp [IsDoneAt, nextState, sequence, h]

theorem arrange_doneStable (start stop step : ℚ) :
    DoneStable (arrange start stop step) :=
  sequence_doneStable _ _

theorem recursive_doneStable (nth : List α → α) (len : JsNum) :
    DoneStable (recursive nth len) := by
  intro s hs
  by_cases h : JsNum.natLt s.1 len
  · refine absurd hs ?_
    rcases s with ⟨i, w⟩
    cases w <;> simp [IsDoneAt, recursive, h]
  · simp [IsDoneAt, nextState, recursive, h]

theorem empty_doneStable : DoneStable (empty (α := α)) := fun _ _ => rfl

theorem iterator_doneStable : DoneStable (iterator (α := α)) := by
  intro s hs
  cases s with
  | nil => exact rfl
  | cons v rest => exact absurd hs (by simp [IsDoneAt, iterator])

theorem map_isDoneAt (it : Iter σ α) (f : α → β) (s : σ) :
    IsDoneAt (map it f) s ↔ IsDoneAt it s := by
  rcases hv : it.next s with ⟨r, s'⟩
  cases r <;> simp [IsDoneAt, map, shift_zero, hv]

theorem map_nextState (it : Iter σ α) (f : α → β) (s : σ) :
    nextState (map it f) s = nextState it s := by
  rcases hv : it.next s with ⟨r, s'⟩
  cases r <;> simp [nextState, map, shift_zero, hv]

theorem map_doneStable (it : Iter σ α) (f : α → β) (h : DoneStable it) :
    DoneStable (map it f) := by
  intro s hs
  rw [map_isDoneAt] at hs ⊢
  rw [map_nextState]
  exact h s hs

/-- Whenever `concatenate`'s skip-loop reports done, the resulting state is
the terminal `iteratorsDone` state. -/
theorem concatAux_done_state (it : Iter σ α) :
    ∀ (rest : List σ) (s : σ), (concatAux it s rest).1 = Step.done →
      (concatAux it s rest).2 = Option.none := by
  intro rest
  induction rest with
  | nil =>
    intro s h
    rcases hv : it.next s with ⟨r, s'⟩
    cases r
    · simp [concatAux, hv]
    · exact absurd h (by simp [concatAux, hv])
  | cons s2 rest ih =>
    intro s h
    rcases hv : it.next s with ⟨r, s'⟩
    cases r
    · have he : concatAux it s (s2 :: rest) = concatAux it s2 rest := by
        conv_lhs => unfold concatAux
        rw [hv]
      rw [he] at h ⊢
      exact ih s2 h
    · exact absurd h (by simp [concatAux, hv])

theorem concatenate_doneStable (it : Iter σ α) : DoneStable (concatenate it) := by
  intro o ho
  have hs : (concatNext it o).2 = Option.none := by
    cases o with
    | none => rfl
    | some p =>
      rcases p with ⟨s, rest⟩
      exact concatAux_done_state it rest s ho
  show ((concatenate it).next ((concatenate it).next o).2).1 = Step.done
  rw [show ((concatenate it).next o).2 = (concatNext it o).2 from rfl, hs]
  rfl

theorem unshift_doneStable (it : Iter σ α) : DoneStable (unshift it) :=
  concatenate_doneStable (sumIter iterator it)

/-- One `filter` pull on a source pull reporting done surfaces the done
result (src line 149-150). -/
theorem filterNext_succ_done (it : Iter σ α) (test : α → Bool) (fuel : ℕ)
    (s t : σ) (hv : it.next s = (Step.done, t)) :
    filterNext it test (fuel + 1) s = Option.some (Step.done, t) := by
  conv_lhs => unfold filterNext
  rw [shift_zero, hv]

/-- One `filter` pull on a source pull yielding an item surfaces the item if
it passes the test, and otherwise retries (src line 149-152). -/
theorem filterNext_succ_value (it : Iter σ α) (test : α → Bool) (fuel : ℕ)
    (s t : σ) (v : α) (hv : it.next s = (Step.value v, t)) :
    filterNext it test (fuel + 1) s =
      if test v then Option.some (Step.value v, t)
      else filterNext it test fuel t := by
  conv_lhs => unfold filterNext
  rw [shift_zero, hv]

/-- Whenever the `filter` skip-loop reports done (with any fuel), the source
at the returned cursor is itself done, provided the source is done-stable. -/
theorem filterNext_done_isDoneAt (it : Iter σ α) (test : α → Bool)
    (hst : DoneStable it) :
    ∀ (fuel : ℕ) (s s' : σ),
      filterNext it test fuel s = Option.some (Step.done, s') →
      IsDoneAt it s' := by
  intro fuel
  induction fuel with
  | zero =>
    intro s s' h
    exact absurd h (by simp [filterNext])
  | succ fuel ih =>
    intro s s' h
    rcases hv : it.next s with ⟨r, t⟩
    cases r with
    | done =>
      rw [filterNext_succ_done it test fuel s t hv] at h
      simp only [Option.some.injEq, Prod.mk.injEq, true_and] at h
      subst h
      have hsdone : IsDoneAt it s := by simp [IsDoneAt, hv]
      have hstep := hst s hsdone
      simpa [nextState, hv] using hstep
    | value v =>
      rw [filterNext_succ_value it test fuel s t v hv] at h
      by_cases htest : test v
      · rw [if_pos htest] at h
        simp at h
      · rw [if_neg htest] at h
        exact ih t s' h

/-- Once `filter` has reported done, every later pull (with any positive
fuel) reports done again, for a done-stable source. -/
theorem filterNext_done_then_done (it : Iter σ α) (test : α → Bool)
    (hst : DoneStable it) (fuel : ℕ) (s s' : σ)
    (h : filterNext it test fuel s = Option.some (Step.done, s')) :
    ∀ fuel', filterNext it test (fuel' + 1) s' =
      Option.some (Step.done, (it.next s').2) := by
  intro fuel'
  have hd : IsDoneAt it s' := filterNext_done_isDoneAt it test hst fuel s s' h
  rcases hv : it.next s' with ⟨r, t⟩
  have hr : r = Step.done := by
    simp [IsDoneAt, hv] at hd
    exact hd
  subst hr
  exact filterNext_succ_done it test fuel' s' t hv

/-- C2 witness: the amended statement on `[5, 3]` with cap `1`: `min` equals
the scan over the first two items, and `max` is `min` with the swapped
comparator. -/
theorem c2_witness :
    (min iterator (fun a b : ℤ => decide (a < b)) 1 [5, 3]).toOption.map
        Prod.fst =
      minOfFirst iterator (fun a b : ℤ => decide (a < b)) ((1 : ℤ).toNat + 1)
        [5, 3] ∧
    max iterator (fun a b : ℤ => decide (a < b)) 1 [5, 3] =
      min iterator (fun a b : ℤ => decide ((fun a b : ℤ => decide (a < b)) b a = true)) 1 [5, 3] :=
  c2_min_scans_first_succ_n iterator (fun a b => decide (a < b)) 1 [5, 3] [3] 5
    (by decide)

/-- C5: idempotent termination of every producer and transformer: once the
returned sequence reports done, every subsequent pull reports done again —
unconditionally for `sequence`, `arrange`, `recursive`, `empty`, `iterator`,
`concatenate` and `unshift` (whose done state is absorbing by construction),
and for `map` and `filter` provided the wrapped source is well-behaved
(done-stable); for `filter`, whose pull is modelled with fuel, a pull after
a done report returns done for every positive fuel. -/
theorem c5_done_idempotent :
    (∀ (α : Type) (nth : ℕ → α) (len : JsNum), DoneSticky (sequence nth len)) ∧
    (∀ start stop step : ℚ, DoneSticky (arrange start stop step)) ∧
    (∀ (α : Type) (nth : List α → α) (len : JsNum),
      DoneSticky (recursive nth len)) ∧
    (∀ (α : Type), DoneSticky (empty (α := α))) ∧
    (∀ (α : Type), DoneSticky (iterator (α := α))) ∧
    (∀ (σ α β : Type) (it : Iter σ α) (mapper : α → β),
      DoneStable it → DoneSticky (map it mapper)) ∧
    (∀ (σ α : Type) (it : Iter σ α) (test : α → Bool), DoneStable it →
      ∀ (fuel : ℕ) (s s' : σ),
        filterNext it test fuel s = Option.some (Step.done, s') →
        ∀ fuel', filterNext it test (fuel' + 1) s' =
          Option.some (Step.done, (it.next s').2)) ∧
    (∀ (σ α : Type) (it : Iter σ α), DoneSticky (concatenate it)) ∧
    (∀ (σ α : Type) (it : Iter σ α), DoneSticky (unshift it)) :=
  ⟨fun _ nth len => doneSticky_of_doneStable _ (sequence_doneStable nth len),
   fun a b c => doneSticky_of_doneStable _ (arrange_doneStable a b c),
   fun _ nth len => doneSticky_of_doneStable _ (recursive_doneStable nth len),
   fun _ => doneSticky_of_doneStable _ empty_doneStable,
   fun _ => doneSticky_of_doneStable _ iterator_doneStable,
   fun _ _ _ it f h => doneSticky_of_doneStable _ (map_doneStable it f h),
   fun _ _ it test h fuel s s' hf =>
     filterNext_done_then_done it test h fuel s s' hf,
   fun _ _ it => doneSticky_of_doneStable _ (concatenate_doneStable it),
   fun _ _ it => doneSticky_of_doneStable _ (unshift_doneStable it)⟩

/-- C5 witness: the map transformer over the done-stable `empty` iterator
still reports done three pulls after its first done report. -/
theorem c5_witness :
    IsDoneAt (map (empty (α := ℕ)) (fun v => v + 1))
      ((nextState (map (empty (α := ℕ)) (fun v => v + 1)))^[3] ()) :=
  c5_done_idempotent.2.2.2.2.2.1 Unit ℕ ℕ empty (fun v => v + 1)
    (fun _ _ => rfl) () rfl 3

/-- Materialization of the `sequence` producer with a finite rational length:
from cursor `i`, given enough fuel, exactly `⌈L⌉.toNat - i` items are
produced, the `j`-th of them being `nth (i + j)`. -/
theorem collect_sequence_fin (nth : ℕ → α) (L : ℚ) :
    ∀ (fuel i : ℕ), ⌈L⌉.toNat - i ≤ fuel →
      collect (sequence nth (JsNum.fin L)) fuel i =
        (List.range (⌈L⌉.toNat - i)).map (fun j => nth (i + j)) := by
  intro fuel
  induction fuel with
  | zero =>
    intro i hi
    have h0 : ⌈L⌉.toNat - i = 0 := by omega
    rw [h0]
    rfl
  | succ fuel ih =>
    intro i hi
    by_cases hil : (i : ℚ) < L
    · have hnext : (sequence nth (JsNum.fin L)).next i =
          (Step.value (nth i), i + 1) := by
        simp [sequence, JsNum.natLt, hil]
      have hceil : i < ⌈L⌉.toNat := by
        have h1 : (i : ℤ) < ⌈L⌉ := Int.lt_ceil.mpr (by exact_mod_cast hil)
        omega
      rw [collect_succ_value _ fuel i (i + 1) (nth i) hnext,
          ih (i + 1) (by omega)]
      have hk : ⌈L⌉.toNat - i = (⌈L⌉.toNat - (i + 1)) + 1 := by omega
      rw [hk, List.range_succ_eq_map, List.map_cons, List.map_map, Nat.add_zero]
      have hfun : ((fun j => nth (i + j)) ∘ Nat.succ) =
          fun j => nth (i + 1 + j) := by
        funext j
        simp only [Function.comp]
        congr 1
        omega
      rw [hfun]
      simp
    · have hnext : (sequence nth (JsNum.fin L)).next i = (Step.done, i) := by
        simp [sequence, JsNum.natLt, hil]
      have h0 : ⌈L⌉.toNat - i = 0 := by
        have h1 : ⌈L⌉ ≤ (i : ℤ) := by
          by_contra hc
          push_neg at hc
          exact hil (by exact_mod_cast Int.lt_ceil.mp hc)
        omega
      rw [collect_succ_done _ fuel i i hnext, h0]
      rfl

/-- C7: for `step ≠ 0`, `arrange` yields exactly
`max(0, ceil((stop - start) / step))` items (the `toNat` of the ceiling),
the `i`-th (0-indexed) being `start + i * step`; the cursor equal to that
count reports done, so the stop bound is always excluded; and a sign of
`stop - start` inconsistent with the sign of `step` gives the empty
materialization — never an error (`arrange` has no error outcome at all). -/
theorem c7_arrange_yields_ceil_items (start stop step : ℚ) (hstep : step ≠ 0)
    (fuel : ℕ) (hfuel : (⌈(stop - start) / step⌉).toNat ≤ fuel) :
    collect (arrange start stop step) fuel 0 =
      (List.range (⌈(stop - start) / step⌉).toNat).map
        (fun i : ℕ => start + (i : ℚ) * step) ∧
    IsDoneAt (arrange start stop step) (⌈(stop - start) / step⌉).toNat ∧
    ((stop - start) * step < 0 →
      collect (arrange start stop step) fuel 0 = []) := by
  have hdiv : jsDiv (stop - start) step = JsNum.fin ((stop - start) / step) := by
    unfold jsDiv
    rw [if_neg hstep]
  have hmain : collect (arrange start stop step) fuel 0 =
      (List.range (⌈(stop - start) / step⌉).toNat).map
        (fun i : ℕ => start + (i : ℚ) * step) := by
    unfold arrange
    rw [hdiv]
    have h := collect_sequence_fin (fun n => start + (n : ℚ) * step)
      ((stop - start) / step) fuel 0 (by omega)
    simp only [Nat.sub_zero, Nat.zero_add] at h
    exact h
  refine ⟨hmain, ?_, ?_⟩
  · unfold IsDoneAt arrange
    rw [hdiv]
    set L := (stop - start) / step with hL
    have hnotlt : ¬ ((⌈L⌉.toNat : ℚ) < L) := by
      have h1 : L ≤ (⌈L⌉ : ℚ) := Int.le_ceil L
      have h2 : (⌈L⌉ : ℤ) ≤ (⌈L⌉.toNat : ℤ) := Int.self_le_toNat _
      have h3 : ((⌈L⌉ : ℤ) : ℚ) ≤ ((⌈L⌉.toNat : ℕ) : ℚ) := by exact_mod_cast h2
      exact not_lt.mpr (le_trans h1 h3)
    simp [sequence, JsNum.natLt, hnotlt]
  · intro hsign
    have hLneg : (stop - start) / step < 0 := by
      rcases mul_neg_iff.mp hsign with ⟨h1, h2⟩ | ⟨h1, h2⟩
      · exact div_neg_of_pos_of_neg h1 h2
      · exact div_neg_of_neg_of_pos h1 h2
    have hc : ⌈(stop - start) / step⌉ ≤ 0 := by
      rw [Int.ceil_le]
      push_cast
      exact hLneg.le
    rw [hmain, show (⌈(stop - start) / step⌉).toNat = 0 by omega]
    rfl

/-- C7 witness: `arrange(0, 3, 1)` yields `⌈3⌉ = 3` items and is done at
cursor 3. -/
theorem c7_witness :
    collect (arrange 0 3 1) 3 0 =
      (List.range (⌈((3 : ℚ) - 0) / 1⌉).toNat).map
        (fun i : ℕ => 0 + (i : ℚ) * 1) ∧
    IsDoneAt (arrange 0 3 1) (⌈((3 : ℚ) - 0) / 1⌉).toNat ∧
    (((3 : ℚ) - 0) * 1 < 0 → collect (arrange 0 3 1) 3 0 = []) :=
  c7_arrange_yields_ceil_items 0 3 1 (by norm_num) 3 (by norm_num)

end Aergia
